import Mathlib

/- Verification of the match-reconciliation and export logic of the
APiNameMatcher repository (src/src/App.js and src/src/utils/dateUtils.js).

Modelling conventions for the shallow embedding:
  * JS strings are modelled as lists of characters (`JsStr`).  String
    concatenation is list append, `.length` is the list length (all strings
    in play are ASCII-scale, where the JS UTF-16 code-unit length agrees
    with the character count), `.trim()` drops whitespace characters from
    both ends (`jsTrim`), and the empty string is the only falsy string, so
    JS `s || fb` becomes `jsOr s fb`.
  * A JS value that may be `null`/`undefined` is an `Option`.
  * `rulesDetails` is modelled in its normalized shape: an optional object
    carrying scalar `sdnid`, `sdnname`, `sanctionReferenceName` fields, the
    shape both comparison functions read (`item.rulesDetails?.sdnid`,
    `rule.sdnid === sdnId`, `rulesDetails.sdnname`).
  * A JS `Set` built from a list and then iterated with `forEach` visits the
    distinct elements in first-insertion order: `setList`.
  * A JS `Map` keeps first-insertion order of keys while `set` overwrites
    the value of an existing key in place: `mapSet`/`mapGet`/`mapHas` over
    association lists. -/

abbrev JsStr := List Char

def js (s : String) : JsStr := s.data

/-- JS `String.prototype.trim`: drop whitespace from both ends. -/
def jsTrim (l : JsStr) : JsStr :=
  ((l.dropWhile Char.isWhitespace).reverse.dropWhile Char.isWhitespace).reverse

/-- JS `s || fb` for strings: the empty string is the only falsy string. -/
def jsOr (s fb : JsStr) : JsStr := if s = [] then fb else s

/-- One normalized `rulesDetails` object of a V2/V4 response item. -/
structure Rule where
  sdnid : JsStr
  sdnname : JsStr
  sanctionReferenceName : JsStr
deriving DecidableEq, Repr

/-- One element of a V2/V4 `responses` array; `rulesDetails` may be absent. -/
structure RespItem where
  rulesDetails : Option Rule
deriving DecidableEq, Repr

/-- A V2/V4 response body: the `responses` array. -/
structure ApiData where
  responses : List RespItem
deriving DecidableEq, Repr

/-- One element of the univius response array. -/
structure UniviusItem where
  sdnId : JsStr
  sdnName : JsStr
  listName : JsStr
deriving DecidableEq, Repr

/-- `item.rulesDetails?.sdnid` followed by the truthiness test used by both
comparison functions: the id of a response item, when present and non-empty. -/
def respItemId (item : RespItem) : Option JsStr :=
  match item.rulesDetails with
  | some d => if d.sdnid = [] then none else some d.sdnid
  | none => none

/-- `(data?.responses || []).flatMap(item => item.rulesDetails?.sdnid || []).filter(Boolean)`:
the (possibly repeating) list of non-empty ids of a V2/V4 response. -/
def respIds (data : Option ApiData) : List JsStr :=
  ((data.map (·.responses)).getD []).filterMap respItemId

/-- `(Array.isArray(univiusData) ? univiusData : []).map(item => item.sdnId).filter(Boolean)`. -/
def univIds (data : Option (List UniviusItem)) : List JsStr :=
  (data.getD []).filterMap (fun item => if item.sdnId = [] then none else some item.sdnId)

/-- Worker for `setList`: `seen` records the elements already emitted. -/
def setListAux (seen : List JsStr) : List JsStr → List JsStr
  | [] => []
  | x :: xs => if x ∈ seen then setListAux seen xs else x :: setListAux (x :: seen) xs

/-- `new Set(l)` iterated with `forEach`: the distinct elements of `l` in
first-occurrence order. -/
def setList (l : List JsStr) : List JsStr := setListAux [] l

namespace AppJs

/-- One entry of the exclusive lists returned by `compareSdnData` in App.js:
`{ id, name, reference }`. -/
structure SdnOut where
  id : JsStr
  name : JsStr
  reference : JsStr
deriving DecidableEq, Repr

/-- The value returned by `compareSdnData` in App.js.  Note: the function
returns only the three exclusive lists; it computes no common list. -/
structure CompareResult where
  onlyInV2 : List SdnOut
  onlyInV4 : List SdnOut
  onlyInUnivius : List SdnOut
deriving DecidableEq, Repr

/-- `findSdnInfo` of App.js: first `rulesDetails` of `data?.responses`
whose `sdnid` equals `sdnId`. -/
def findSdnInfo (data : Option ApiData) (sdnId : JsStr) : Option Rule :=
  (((data.map (·.responses)).getD []).filterMap (·.rulesDetails)).find?
    (fun rule => decide (rule.sdnid = sdnId))

/-- `compareSdnData` of App.js (three sources).  Each exclusive list is built
by iterating the source's id set in first-occurrence order, keeping the ids
absent from both other sources, and looking the record's metadata back up in
the source. -/
def compareSdnData (v2Data v4Data : Option ApiData)
    (univiusData : Option (List UniviusItem)) : CompareResult :=
  let v2Sdns := setList (respIds v2Data)
  let v4Sdns := setList (respIds v4Data)
  let univiusSdns := setList (univIds univiusData)
  let onlyInV2 :=
    (v2Sdns.filter (fun id => decide (id ∉ v4Sdns ∧ id ∉ univiusSdns))).filterMap
      (fun sdnId => (findSdnInfo v2Data sdnId).map (fun info =>
        { id := sdnId, name := jsOr info.sdnname (js "N/A"),
          reference := jsOr info.sanctionReferenceName (js "") }))
  let onlyInV4 :=
    (v4Sdns.filter (fun id => decide (id ∉ v2Sdns ∧ id ∉ univiusSdns))).filterMap
      (fun sdnId => (findSdnInfo v4Data sdnId).map (fun info =>
        { id := sdnId, name := jsOr info.sdnname (js "N/A"),
          reference := jsOr info.sanctionReferenceName (js "") }))
  let onlyInUnivius :=
    (univiusSdns.filter (fun id => decide (id ∉ v2Sdns ∧ id ∉ v4Sdns))).filterMap
      (fun sdnId => ((univiusData.getD []).find? (fun item => decide (item.sdnId = sdnId))).map
        (fun info =>
          { id := sdnId, name := jsOr info.sdnName (js "N/A"),
            reference := jsOr info.listName (js "") }))
  { onlyInV2 := onlyInV2, onlyInV4 := onlyInV4, onlyInUnivius := onlyInUnivius }

/-- Number of the three sources in which a given id occurs (with a non-empty id). -/
def srcCount (v2 v4 : Option ApiData) (u : Option (List UniviusItem)) (id : JsStr) : Nat :=
  (if id ∈ respIds v2 then 1 else 0) + (if id ∈ respIds v4 then 1 else 0) +
    (if id ∈ univIds u then 1 else 0)

/-- Number of the three exclusive result lists that carry a given id. -/
def listCount (R : CompareResult) (id : JsStr) : Nat :=
  (if id ∈ R.onlyInV2.map (·.id) then 1 else 0) +
    (if id ∈ R.onlyInV4.map (·.id) then 1 else 0) +
    (if id ∈ R.onlyInUnivius.map (·.id) then 1 else 0)

end AppJs

/-- `Map.prototype.set`: overwrite the value of an existing key in place
(keeping its original insertion position), otherwise append the new binding. -/
def mapSet {α : Type} (m : List (JsStr × α)) (k : JsStr) (v : α) : List (JsStr × α) :=
  if m.any (fun p => decide (p.1 = k)) then
    m.map (fun p => if p.1 = k then (k, v) else p)
  else m ++ [(k, v)]

/-- `Map.prototype.get`, returning `none` for a missing key. -/
def mapGet {α : Type} (m : List (JsStr × α)) (k : JsStr) : Option α :=
  (m.find? (fun p => decide (p.1 = k))).map (·.2)

/-- `Map.prototype.has`. -/
def mapHas {α : Type} (m : List (JsStr × α)) (k : JsStr) : Bool :=
  m.any (fun p => decide (p.1 = k))

namespace DateUtils

/-- The per-id record of the V2 map built by `compareSdnData` in dateUtils.js:
`{ position, name, reference }`. -/
structure V2Info where
  position : Nat
  name : JsStr
  reference : JsStr
deriving DecidableEq, Repr

/-- One entry of `onlyInV2`/`onlyInV4`/`inBoth` in dateUtils.js:
`{ id, name, reference, v2Position, v4Position }` (a `null` position is `none`). -/
structure SdnData where
  id : JsStr
  name : JsStr
  reference : JsStr
  v2Position : Option Nat
  v4Position : Option Nat
deriving DecidableEq, Repr

/-- The value returned by `compareSdnData` in dateUtils.js. -/
structure CompareResult2 where
  onlyInV2 : List SdnData
  onlyInV4 : List SdnData
  inBoth : List SdnData
  v2SdnInfo : List (JsStr × V2Info)
  v4SdnPositions : List (JsStr × Nat)
deriving DecidableEq, Repr

/-- The V2 `forEach` of dateUtils.js `compareSdnData`: build a map from id to
`{position, name, reference}`.  Note the unguarded `v2SdnInfo.set(sdnId, ...)`:
a repeated id OVERWRITES the earlier binding, so the last occurrence wins. -/
def buildV2Info : List RespItem → Nat → List (JsStr × V2Info) → List (JsStr × V2Info)
  | [], _, m => m
  | item :: rest, i, m =>
    buildV2Info rest (i + 1)
      (match item.rulesDetails with
       | some d =>
         if d.sdnid = [] then m
         else mapSet m d.sdnid ⟨i + 1, jsOr d.sdnname (js "N/A"),
           jsOr d.sanctionReferenceName (js "")⟩
       | none => m)

/-- The V4 `forEach` of dateUtils.js `compareSdnData`: build a map from id to
its 1-based position, guarded by `!v4SdnPositions.has(sdnId)`, so the first
occurrence wins. -/
def buildV4Pos : List RespItem → Nat → List (JsStr × Nat) → List (JsStr × Nat)
  | [], _, m => m
  | item :: rest, i, m =>
    buildV4Pos rest (i + 1)
      (match respItemId item with
       | some id => if mapHas m id then m else mapSet m id (i + 1)
       | none => m)

/-- `compareSdnData` of dateUtils.js (two sources, with positions and an
`inBoth` list). -/
def compareSdnData (v2Data v4Data : Option ApiData) : CompareResult2 :=
  let v2SdnInfo := buildV2Info ((v2Data.map (·.responses)).getD []) 0 []
  let v4Responses := (v4Data.map (·.responses)).getD []
  let v4SdnPositions := buildV4Pos v4Responses 0 []
  let onlyInV2 := v2SdnInfo.filterMap (fun p =>
    match mapGet v4SdnPositions p.1 with
    | some _ => none
    | none => some ⟨p.1, p.2.name, p.2.reference, some p.2.position, none⟩)
  let inBoth := v2SdnInfo.filterMap (fun p =>
    match mapGet v4SdnPositions p.1 with
    | some v4Position => some ⟨p.1, p.2.name, p.2.reference, some p.2.position, some v4Position⟩
    | none => none)
  let onlyInV4 := v4SdnPositions.filterMap (fun p =>
    if mapHas v2SdnInfo p.1 then none
    else
      let v4Item := (v4Responses.find? (fun item =>
        match item.rulesDetails with
        | some d => decide (d.sdnid = p.1)
        | none => false)).bind (·.rulesDetails)
      some ⟨p.1, jsOr ((v4Item.map (·.sdnname)).getD []) (js "N/A"),
        jsOr ((v4Item.map (·.sanctionReferenceName)).getD []) (js ""),
        none, some p.2⟩)
  { onlyInV2 := onlyInV2, onlyInV4 := onlyInV4, inBoth := inBoth,
    v2SdnInfo := v2SdnInfo, v4SdnPositions := v4SdnPositions }

/-- 1-based position and item of the FIRST response item whose (non-empty) id
is `id` — the reconciliation rank the specification ascribes to every source. -/
def firstIdxEntry (l : List RespItem) (id : JsStr) : Option (Nat × RespItem) :=
  match l with
  | [] => none
  | item :: rest =>
    if respItemId item = some id then some (0, item)
    else (firstIdxEntry rest id).map (fun p => (p.1 + 1, p.2))

/-- 0-based index and item of the LAST response item whose (non-empty) id is
`id` — what the unguarded V2 map of dateUtils.js actually keeps. -/
def lastIdxEntry (l : List RespItem) (id : JsStr) : Option (Nat × RespItem) :=
  match l with
  | [] => none
  | item :: rest =>
    match lastIdxEntry rest id with
    | some p => some (p.1 + 1, p.2)
    | none => if respItemId item = some id then some (0, item) else none

/-- The V2 metadata dateUtils.js derives from a response item at 1-based
position `pos`. -/
def v2InfoOf (pos : Nat) (item : RespItem) : V2Info :=
  ⟨pos, jsOr ((item.rulesDetails.map (·.sdnname)).getD []) (js "N/A"),
    jsOr ((item.rulesDetails.map (·.sanctionReferenceName)).getD []) (js "")⟩

end DateUtils

/-- A record handed to `splitSdnsForExport`: only its `id` and `name` are
read by the splitter. -/
structure Sdn where
  id : JsStr
  name : JsStr
deriving DecidableEq, Repr

/-- One chunk produced by `splitSdnsForExport`:
`{ content, isContinuation }`. -/
structure Chunk where
  content : JsStr
  isContinuation : Bool
deriving DecidableEq, Repr

/-- The line rendered for one record, `\r\n` excluded: `"{id} - {name}"`. -/
def lineOf (s : Sdn) : JsStr := s.id ++ js " - " ++ s.name

/-- `` `${sdn.id} - ${sdn.name}\r\n` `` of `splitSdnsForExport`. -/
def sdnText (s : Sdn) : JsStr := s.id ++ js " - " ++ s.name ++ js "\r\n"

/-- The loop of `splitSdnsForExport`, with its state (`result`,
`currentChunk`, `currentLength`) made explicit.  `MAX_CHUNK_SIZE` is 30000. -/
def splitGo : List Sdn → List Chunk → List JsStr → Nat → List Chunk
  | [], result, currentChunk, _ =>
    if currentChunk = [] then result
    else result ++ [⟨jsTrim currentChunk.flatten, decide (0 < result.length)⟩]
  | sdn :: rest, result, currentChunk, currentLength =>
    let t := sdnText sdn
    if 30000 < currentLength + t.length ∧ currentChunk ≠ [] then
      splitGo rest (result ++ [⟨jsTrim currentChunk.flatten, decide (0 < result.length)⟩])
        [t] t.length
    else
      splitGo rest result (currentChunk ++ [t]) (currentLength + t.length)

/-- `splitSdnsForExport` (identical in App.js and dateUtils.js): split a
record list into Excel-cell-sized chunks; an empty list yields the single
literal chunk `"No matches"`. -/
def splitSdnsForExport (sdns : List Sdn) : List Chunk :=
  if sdns = [] then [⟨js "No matches", false⟩]
  else splitGo sdns [] [] 0

/-- Total rendered length of a group of records, as tracked by
`currentLength`. -/
def textLen (g : List Sdn) : Nat := (g.map (fun r => (sdnText r).length)).sum

/-- Concatenation of the rendered texts of a group of records, as produced by
`currentChunk.flatten('')`. -/
def joinTexts (g : List Sdn) : JsStr := (g.map sdnText).flatten

/-- The greedy grouping underlying `splitGo`: the consecutive groups of
records that end up in the same chunk. -/
def chunksOfGo : List Sdn → List Sdn → List (List Sdn)
  | [], cur => if cur = [] then [] else [cur]
  | sdn :: rest, cur =>
    if 30000 < textLen cur + (sdnText sdn).length ∧ cur ≠ [] then
      cur :: chunksOfGo rest [sdn]
    else
      chunksOfGo rest (cur ++ [sdn])

/-- The groups of records of `splitSdnsForExport sdns` (non-empty input). -/
def chunksOf (sdns : List Sdn) : List (List Sdn) := chunksOfGo sdns []

/-- Rebuild the emitted chunks from the record groups; `n` counts the chunks
already emitted, so `isContinuation` is exactly `0 < n`. -/
def mkChunks : List (List Sdn) → Nat → List Chunk
  | [], _ => []
  | g :: gs, n => ⟨jsTrim (joinTexts g), decide (0 < n)⟩ :: mkChunks gs (n + 1)

/-- A string that JS `trim` leaves untouched at either end: non-empty, first
character not whitespace, last character not whitespace. -/
def cleanStr (l : JsStr) : Bool :=
  !l.isEmpty && !(l.head?.any Char.isWhitespace) && !(l.getLast?.any Char.isWhitespace)

/-- A record whose rendered line `"{id} - {name}"` is `trim`-invariant. -/
def CleanLine (s : Sdn) : Prop := cleanStr (lineOf s) = true

instance (s : Sdn) : Decidable (CleanLine s) :=
  inferInstanceAs (Decidable (cleanStr (lineOf s) = true))

/-- One processed result row as consumed by `exportToExcel` of App.js.  The
diagnostic duration fields (floating-point millisecond timings) take no part
in the chunking/row-count logic and are omitted from the model. -/
structure ResultEntry where
  name : JsStr
  v2 : Option ApiData
  v4 : Option ApiData
  univius : Option (List UniviusItem)
deriving DecidableEq, Repr

/-- `{ id: item.rulesDetails?.sdnid || 'N/A', name: item.rulesDetails?.sdnname || 'N/A' }`. -/
def exportSdn (item : RespItem) : Sdn :=
  ⟨jsOr ((item.rulesDetails.map (·.sdnid)).getD []) (js "N/A"),
    jsOr ((item.rulesDetails.map (·.sdnname)).getD []) (js "N/A")⟩

/-- `{ id: item.sdnId || 'N/A', name: item.sdnName || 'N/A' }` (the univius
`reference` field is never read by the splitter and is dropped). -/
def exportUnivSdn (item : UniviusItem) : Sdn :=
  ⟨jsOr item.sdnId (js "N/A"), jsOr item.sdnName (js "N/A")⟩

/-- `result.v2?.responses?.length > 0 ? result.v2.responses.map(...) : []`. -/
def v2SdnsOf (r : ResultEntry) : List Sdn :=
  ((r.v2.map (·.responses)).getD []).map exportSdn

/-- The V4 analogue of `v2SdnsOf`. -/
def v4SdnsOf (r : ResultEntry) : List Sdn :=
  ((r.v4.map (·.responses)).getD []).map exportSdn

/-- `Array.isArray(result.univius) ? result.univius.map(...) : []`. -/
def univiusSdnsOf (r : ResultEntry) : List Sdn :=
  (r.univius.getD []).map exportUnivSdn

/-- `v2Sdns.filter(v2 => !v4Sdns.some(...) && !univiusSdns.some(...))`. -/
def exOnlyInV2 (r : ResultEntry) : List Sdn :=
  (v2SdnsOf r).filter (fun v2 =>
    !(v4SdnsOf r).any (fun v4 => decide (v4.id = v2.id)) &&
      !(univiusSdnsOf r).any (fun u => decide (u.id = v2.id)))

/-- The V4 analogue of `exOnlyInV2`. -/
def exOnlyInV4 (r : ResultEntry) : List Sdn :=
  (v4SdnsOf r).filter (fun v4 =>
    !(v2SdnsOf r).any (fun v2 => decide (v2.id = v4.id)) &&
      !(univiusSdnsOf r).any (fun u => decide (u.id = v4.id)))

/-- The univius analogue of `exOnlyInV2`. -/
def exOnlyInUnivius (r : ResultEntry) : List Sdn :=
  (univiusSdnsOf r).filter (fun u =>
    !(v2SdnsOf r).any (fun v2 => decide (v2.id = u.id)) &&
      !(v4SdnsOf r).any (fun v4 => decide (v4.id = u.id)))

/-- `Math.max(v2Chunks.length, onlyV2Chunks.length, v4Chunks.length,
onlyV4Chunks.length, univiusChunks.length, onlyUniviusChunks.length, 1)`. -/
def maxChunksOf (r : ResultEntry) : Nat :=
  max (max (max (max (max (max
    (splitSdnsForExport (v2SdnsOf r)).length
    (splitSdnsForExport (exOnlyInV2 r)).length)
    (splitSdnsForExport (v4SdnsOf r)).length)
    (splitSdnsForExport (exOnlyInV4 r)).length)
    (splitSdnsForExport (univiusSdnsOf r)).length)
    (splitSdnsForExport (exOnlyInUnivius r)).length)
    1

/-- One output row of `exportToExcel` (the string-valued columns; the
duration/fastest-API columns carry diagnostic float formatting and are
outside the reconciliation/export-chunking logic under verification). -/
structure ExportRow where
  rowName : JsStr
  v2Matches : JsStr
  onlyV2 : JsStr
  v4Matches : JsStr
  onlyV4 : JsStr
  univiusMatches : JsStr
  onlyUnivius : JsStr
deriving DecidableEq, Repr

/-- `chunks[i]?.content || (isFirstRow ? 'No matches' : '')`. -/
def cellAt (chunks : List Chunk) (i : Nat) : JsStr :=
  match chunks.get? i with
  | some c => jsOr c.content (if i = 0 then js "No matches" else js "")
  | none => if i = 0 then js "No matches" else js ""

/-- The row built for chunk index `i` of one result (`isFirstRow` is
`i === 0`); the `Name` column of a continuation row is
`` `(cont.) ${result.name}` ``. -/
def rowAt (r : ResultEntry) (i : Nat) : ExportRow :=
  { rowName := if i = 0 then r.name else js "(cont.) " ++ r.name,
    v2Matches := cellAt (splitSdnsForExport (v2SdnsOf r)) i,
    onlyV2 := cellAt (splitSdnsForExport (exOnlyInV2 r)) i,
    v4Matches := cellAt (splitSdnsForExport (v4SdnsOf r)) i,
    onlyV4 := cellAt (splitSdnsForExport (exOnlyInV4 r)) i,
    univiusMatches := cellAt (splitSdnsForExport (univiusSdnsOf r)) i,
    onlyUnivius := cellAt (splitSdnsForExport (exOnlyInUnivius r)) i }

/-- `for (let i = 0; i < maxChunks; i++) ... exportData.push(rowData)`:
the rows one result contributes to the export. -/
def rowsForResult (r : ResultEntry) : List ExportRow :=
  (List.range (maxChunksOf r)).map (rowAt r)

/-- The full export body: results contribute their rows in order.  (The
`CHUNK_SIZE = 100` batching of the outer loop only interleaves UI progress
updates; the rows appended are those of each result in order.) -/
def exportData (results : List ResultEntry) : List ExportRow :=
  results.flatMap rowsForResult

/-- Concrete processed result used as a test vector: two V2 records whose
rendered lines are 16000 characters each, so their chunks cannot share a cell
and the export needs two rows. -/
def wideResult : ResultEntry :=
  ⟨js "Alice", some ⟨[⟨some ⟨js "1", List.replicate 15996 'a', js ""⟩⟩,
    ⟨some ⟨js "2", List.replicate 15996 'a', js ""⟩⟩]⟩, none, none⟩

/- ===================  Lemmas about the embedding  =================== -/

theorem mem_setListAux {a : JsStr} :
    ∀ {l seen : List JsStr}, a ∈ setListAux seen l ↔ a ∈ l ∧ a ∉ seen
  | [], seen => by simp [setListAux]
  | x :: xs, seen => by
    rw [setListAux]
    by_cases hx : x ∈ seen
    · simp only [if_pos hx, mem_setListAux (l := xs)]
      constructor
      · exact fun ⟨h1, h2⟩ => ⟨List.mem_cons_of_mem _ h1, h2⟩
      · rintro ⟨h1, h2⟩
        rcases List.mem_cons.mp h1 with rfl | h1
        · exact absurd hx h2
        · exact ⟨h1, h2⟩
    · simp only [if_neg hx, List.mem_cons, mem_setListAux (l := xs)]
      by_cases hax : a = x
      · subst hax; simp [hx]
      · simp [hax]

theorem mem_setList {a : JsStr} {l : List JsStr} : a ∈ setList l ↔ a ∈ l := by
  rw [setList, mem_setListAux]
  simp

namespace AppJs

theorem respItemId_eq_some {item : RespItem} {id : JsStr} :
    respItemId item = some id ↔ ∃ d, item.rulesDetails = some d ∧ d.sdnid = id ∧ id ≠ [] := by
  unfold respItemId
  cases hr : item.rulesDetails with
  | none => simp
  | some d =>
    by_cases hd : d.sdnid = []
    · simp only [if_pos hd]
      constructor
      · intro h; exact absurd h (by simp)
      · rintro ⟨d2, hd2, hid, hne⟩
        cases hd2; exact absurd (hd ▸ hid) (Ne.symm hne)
    · simp only [if_neg hd]
      constructor
      · rintro h; cases h; exact ⟨d, rfl, rfl, hd⟩
      · rintro ⟨d2, hd2, hid, _⟩; cases hd2; exact congrArg some hid

theorem ne_nil_of_mem_respIds {d : Option ApiData} {id : JsStr} (h : id ∈ respIds d) :
    id ≠ [] := by
  obtain ⟨item, _, hitem⟩ := List.mem_filterMap.mp h
  obtain ⟨_, _, _, hne⟩ := respItemId_eq_some.mp hitem
  exact hne

theorem ne_nil_of_mem_univIds {u : Option (List UniviusItem)} {id : JsStr}
    (h : id ∈ univIds u) : id ≠ [] := by
  obtain ⟨item, _, hitem⟩ := List.mem_filterMap.mp h
  by_cases hi : item.sdnId = [] <;> simp [hi] at hitem
  exact fun hn => hi (hitem ▸ hn)

theorem findSdnInfo_isSome {d : Option ApiData} {id : JsStr} (h : id ∈ respIds d) :
    (findSdnInfo d id).isSome := by
  obtain ⟨item, hmem, hitem⟩ := List.mem_filterMap.mp h
  obtain ⟨rule, hrule, hid, _⟩ := respItemId_eq_some.mp hitem
  rw [findSdnInfo, List.find?_isSome]
  exact ⟨rule, List.mem_filterMap.mpr ⟨item, hmem, hrule⟩, by simp [hid]⟩

theorem univFind_isSome {u : Option (List UniviusItem)} {id : JsStr} (h : id ∈ univIds u) :
    ((u.getD []).find? (fun item => decide (item.sdnId = id))).isSome := by
  obtain ⟨item, hmem, hitem⟩ := List.mem_filterMap.mp h
  by_cases hi : item.sdnId = [] <;> simp [hi] at hitem
  rw [List.find?_isSome]
  exact ⟨item, hmem, by simp [hitem]⟩

/-- Ids of a `filterMap`-built exclusive list: membership reduces to
membership in the iterated id list together with a successful lookup. -/
theorem mem_ids_exclusive {α : Type} {l : List JsStr} {f : JsStr → Option α}
    {idOf : α → JsStr} (hf : ∀ a out, f a = some out → idOf out = a) {id : JsStr} :
    id ∈ (l.filterMap f).map idOf ↔ id ∈ l ∧ (f id).isSome := by
  constructor
  · intro h
    obtain ⟨out, hout, rfl⟩ := List.mem_map.mp h
    obtain ⟨a, ha, hfa⟩ := List.mem_filterMap.mp hout
    rw [hf a out hfa]
    exact ⟨ha, by rw [hfa]; rfl⟩
  · rintro ⟨hl, hs⟩
    obtain ⟨out, hout⟩ := Option.isSome_iff_exists.mp hs
    exact List.mem_map.mpr ⟨out, List.mem_filterMap.mpr ⟨id, hl, hout⟩, hf id out hout⟩

theorem mem_ids_onlyInV2 {v2 v4 : Option ApiData} {u : Option (List UniviusItem)}
    {id : JsStr} :
    id ∈ (compareSdnData v2 v4 u).onlyInV2.map (·.id) ↔
      id ∈ respIds v2 ∧ id ∉ respIds v4 ∧ id ∉ univIds u := by
  simp only [compareSdnData]
  rw [mem_ids_exclusive (fun a out h => by
    cases hfind : findSdnInfo v2 a <;> simp [hfind] at h
    cases h; rfl)]
  rw [List.mem_filter, mem_setList, decide_eq_true_eq, mem_setList, mem_setList]
  constructor
  · rintro ⟨⟨h1, h2, h3⟩, _⟩; exact ⟨h1, h2, h3⟩
  · rintro ⟨h1, h2, h3⟩
    refine ⟨⟨h1, h2, h3⟩, ?_⟩
    cases hfind : findSdnInfo v2 id with
    | none => exact absurd (hfind ▸ findSdnInfo_isSome h1) (by simp)
    | some info => simp

theorem mem_ids_onlyInV4 {v2 v4 : Option ApiData} {u : Option (List UniviusItem)}
    {id : JsStr} :
    id ∈ (compareSdnData v2 v4 u).onlyInV4.map (·.id) ↔
      id ∈ respIds v4 ∧ id ∉ respIds v2 ∧ id ∉ univIds u := by
  simp only [compareSdnData]
  rw [mem_ids_exclusive (fun a out h => by
    cases hfind : findSdnInfo v4 a <;> simp [hfind] at h
    cases h; rfl)]
  rw [List.mem_filter, mem_setList, decide_eq_true_eq, mem_setList, mem_setList]
  constructor
  · rintro ⟨⟨h1, h2, h3⟩, _⟩; exact ⟨h1, h2, h3⟩
  · rintro ⟨h1, h2, h3⟩
    refine ⟨⟨h1, h2, h3⟩, ?_⟩
    cases hfind : findSdnInfo v4 id with
    | none => exact absurd (hfind ▸ findSdnInfo_isSome h1) (by simp)
    | some info => simp

theorem mem_ids_onlyInUnivius {v2 v4 : Option ApiData} {u : Option (List UniviusItem)}
    {id : JsStr} :
    id ∈ (compareSdnData v2 v4 u).onlyInUnivius.map (·.id) ↔
      id ∈ univIds u ∧ id ∉ respIds v2 ∧ id ∉ respIds v4 := by
  simp only [compareSdnData]
  rw [mem_ids_exclusive (fun a out h => by
    cases hfind : (u.getD []).find? (fun item => decide (item.sdnId = a)) <;>
      simp [hfind] at h
    cases h; rfl)]
  rw [List.mem_filter, mem_setList, decide_eq_true_eq, mem_setList, mem_setList]
  constructor
  · rintro ⟨⟨h1, h2, h3⟩, _⟩; exact ⟨h1, h2, h3⟩
  · rintro ⟨h1, h2, h3⟩
    refine ⟨⟨h1, h2, h3⟩, ?_⟩
    cases hfind : (u.getD []).find? (fun item => decide (item.sdnId = id)) with
    | none => exact absurd (hfind ▸ univFind_isSome h1) (by simp)
    | some info => simp

/-- Every id carried by an entry of one of the three exclusive lists is one of
the non-empty ids extracted from the corresponding source. -/
theorem id_mem_of_mem_onlyInV2 {v2 v4 : Option ApiData} {u : Option (List UniviusItem)}
    {out : SdnOut} (h : out ∈ (compareSdnData v2 v4 u).onlyInV2) :
    out.id ∈ respIds v2 ∧ out.id ∉ respIds v4 ∧ out.id ∉ univIds u :=
  mem_ids_onlyInV2.mp (List.mem_map.mpr ⟨out, h, rfl⟩)

theorem id_mem_of_mem_onlyInV4 {v2 v4 : Option ApiData} {u : Option (List UniviusItem)}
    {out : SdnOut} (h : out ∈ (compareSdnData v2 v4 u).onlyInV4) :
    out.id ∈ respIds v4 ∧ out.id ∉ respIds v2 ∧ out.id ∉ univIds u :=
  mem_ids_onlyInV4.mp (List.mem_map.mpr ⟨out, h, rfl⟩)

theorem id_mem_of_mem_onlyInUnivius {v2 v4 : Option ApiData}
    {u : Option (List UniviusItem)} {out : SdnOut}
    (h : out ∈ (compareSdnData v2 v4 u).onlyInUnivius) :
    out.id ∈ univIds u ∧ out.id ∉ respIds v2 ∧ out.id ∉ respIds v4 :=
  mem_ids_onlyInUnivius.mp (List.mem_map.mpr ⟨out, h, rfl⟩)

/-- When every element of `l` yields a successful lookup, the exclusive-list
construction keeps exactly the iterated ids, in order. -/
theorem ids_exclusive_eq {α : Type} {l : List JsStr} {f : JsStr → Option α}
    {idOf : α → JsStr} (hf : ∀ a out, f a = some out → idOf out = a)
    (hs : ∀ a ∈ l, (f a).isSome) :
    (l.filterMap f).map idOf = l := by
  induction l with
  | nil => rfl
  | cons x xs ih =>
    obtain ⟨out, hout⟩ := Option.isSome_iff_exists.mp (hs x (by simp))
    rw [List.filterMap_cons, hout]
    simp only [List.map_cons]
    rw [hf x out hout, ih (fun a ha => hs a (by simp [ha]))]

end AppJs

/- ===================  Claims about the App.js comparison  =================== -/

/-- C1 counterexample: with the id "1" present in both V2 and V4, the result of
App.js compareSdnData places it in none of the returned lists (the function
returns no common list at all), so the id lies in exactly zero, not exactly
one, of the result lists. -/
theorem c1_partition_counterexample :
    ¬ (∀ id : JsStr,
        0 < AppJs.srcCount (some ⟨[⟨some ⟨js "1", js "A", js ""⟩⟩]⟩)
          (some ⟨[⟨some ⟨js "1", js "A", js ""⟩⟩]⟩) none id →
        AppJs.listCount (AppJs.compareSdnData (some ⟨[⟨some ⟨js "1", js "A", js ""⟩⟩]⟩)
          (some ⟨[⟨some ⟨js "1", js "A", js ""⟩⟩]⟩) none) id = 1) :=
  fun h => absurd (h (js "1") (by decide)) (by decide)

/-- C1 (amended): every non-empty id occurring in at least one source lies in
exactly one of the three exclusive lists when it occurs in exactly one source,
and in none of them when it occurs in two or more sources (App.js
compareSdnData computes no common list). -/
theorem c1_partition_amended (v2 v4 : Option ApiData) (u : Option (List UniviusItem))
    (id : JsStr) :
    AppJs.listCount (AppJs.compareSdnData v2 v4 u) id =
      if AppJs.srcCount v2 v4 u id = 1 then 1 else 0 := by
  by_cases h2 : id ∈ respIds v2 <;> by_cases h4 : id ∈ respIds v4 <;>
    by_cases hu : id ∈ univIds u <;>
    simp only [AppJs.srcCount, AppJs.listCount, AppJs.mem_ids_onlyInV2,
      AppJs.mem_ids_onlyInV4, AppJs.mem_ids_onlyInUnivius] <;>
    simp [h2, h4, hu]

/-- C3 counterexample: called with only the V2 source present (fewer than two
sources), App.js compareSdnData does not signal any error — it returns an
ordinary result; no code path of the function checks the number of sources. -/
theorem c3_failfast_counterexample :
    AppJs.compareSdnData (some ⟨[⟨some ⟨js "1", js "Alice", js ""⟩⟩]⟩) none none =
      { onlyInV2 := [⟨js "1", js "Alice", js ""⟩], onlyInV4 := [], onlyInUnivius := [] } := by
  decide

/-- C3 (amended): the implementation performs no insufficient-sources
precondition check: with every source but V2 absent it returns a normal
result, treating the missing sources as empty (the other exclusive lists are
empty and onlyInV2 carries exactly V2's distinct non-empty ids in order), and
with no source at all it returns the empty result. -/
theorem c3_no_precondition_check (v2Data : Option ApiData) :
    (AppJs.compareSdnData v2Data none none).onlyInV4 = [] ∧
    (AppJs.compareSdnData v2Data none none).onlyInUnivius = [] ∧
    (AppJs.compareSdnData v2Data none none).onlyInV2.map (·.id) = setList (respIds v2Data) ∧
    AppJs.compareSdnData none none none = ⟨[], [], []⟩ := by
  refine ⟨rfl, rfl, ?_, rfl⟩
  have hfilter : (setList (respIds v2Data)).filter
      (fun id => decide (id ∉ setList (respIds none) ∧ id ∉ setList (univIds none))) =
      setList (respIds v2Data) :=
    List.filter_eq_self.mpr (fun a _ => by simp [setList, setListAux, respIds, univIds])
  simp only [AppJs.compareSdnData]
  rw [hfilter]
  apply AppJs.ids_exclusive_eq
  · intro a out h
    cases hfind : AppJs.findSdnInfo v2Data a <;> simp [hfind] at h
    cases h; rfl
  · intro a ha
    cases hfind : AppJs.findSdnInfo v2Data a with
    | none =>
      exact absurd (hfind ▸ AppJs.findSdnInfo_isSome (mem_setList.mp ha)) (by simp)
    | some info => simp

/-- C5: a record whose entityId is empty or missing is never matched across
sources: every entry of every result list of App.js compareSdnData carries a
non-empty id, and membership of an id in each result list is determined
solely by which sources contain that id. -/
theorem c5_empty_ids_excluded (v2 v4 : Option ApiData) (u : Option (List UniviusItem)) :
    (∀ out ∈ (AppJs.compareSdnData v2 v4 u).onlyInV2, out.id ≠ []) ∧
    (∀ out ∈ (AppJs.compareSdnData v2 v4 u).onlyInV4, out.id ≠ []) ∧
    (∀ out ∈ (AppJs.compareSdnData v2 v4 u).onlyInUnivius, out.id ≠ []) ∧
    (∀ id, id ∈ (AppJs.compareSdnData v2 v4 u).onlyInV2.map (·.id) ↔
      id ∈ respIds v2 ∧ id ∉ respIds v4 ∧ id ∉ univIds u) ∧
    (∀ id, id ∈ (AppJs.compareSdnData v2 v4 u).onlyInV4.map (·.id) ↔
      id ∈ respIds v4 ∧ id ∉ respIds v2 ∧ id ∉ univIds u) ∧
    (∀ id, id ∈ (AppJs.compareSdnData v2 v4 u).onlyInUnivius.map (·.id) ↔
      id ∈ univIds u ∧ id ∉ respIds v2 ∧ id ∉ respIds v4) := by
  refine ⟨?_, ?_, ?_, fun id => AppJs.mem_ids_onlyInV2, fun id => AppJs.mem_ids_onlyInV4,
    fun id => AppJs.mem_ids_onlyInUnivius⟩
  · intro out h; exact AppJs.ne_nil_of_mem_respIds (AppJs.id_mem_of_mem_onlyInV2 h).1
  · intro out h; exact AppJs.ne_nil_of_mem_respIds (AppJs.id_mem_of_mem_onlyInV4 h).1
  · intro out h; exact AppJs.ne_nil_of_mem_univIds (AppJs.id_mem_of_mem_onlyInUnivius h).1

/-- C5 witness: the non-empty-id guarantee evaluated on a concrete result. -/
theorem c5_witness :
    ((⟨js "1", js "Alice", js ""⟩ : AppJs.SdnOut) ∈
      (AppJs.compareSdnData (some ⟨[⟨some ⟨js "1", js "Alice", js ""⟩⟩]⟩)
        none none).onlyInV2) ∧
    (⟨js "1", js "Alice", js ""⟩ : AppJs.SdnOut).id ≠ [] :=
  ⟨by decide,
    (c5_empty_ids_excluded (some ⟨[⟨some ⟨js "1", js "Alice", js ""⟩⟩]⟩) none none).1 _
      (by decide)⟩

/-- C6: an entityId appears in the exclusive list of at most one source: the
id sets of the three exclusive lists of App.js compareSdnData are pairwise
disjoint. -/
theorem c6_exclusive_disjoint (v2 v4 : Option ApiData) (u : Option (List UniviusItem))
    (id : JsStr) :
    (id ∈ (AppJs.compareSdnData v2 v4 u).onlyInV2.map (·.id) →
      id ∉ (AppJs.compareSdnData v2 v4 u).onlyInV4.map (·.id) ∧
      id ∉ (AppJs.compareSdnData v2 v4 u).onlyInUnivius.map (·.id)) ∧
    (id ∈ (AppJs.compareSdnData v2 v4 u).onlyInV4.map (·.id) →
      id ∉ (AppJs.compareSdnData v2 v4 u).onlyInUnivius.map (·.id)) := by
  constructor
  · intro h
    obtain ⟨h2, h4, hu⟩ := AppJs.mem_ids_onlyInV2.mp h
    constructor
    · intro hbad; exact h4 (AppJs.mem_ids_onlyInV4.mp hbad).1
    · intro hbad; exact hu (AppJs.mem_ids_onlyInUnivius.mp hbad).1
  · intro h hbad
    exact (AppJs.mem_ids_onlyInV4.mp h).2.2 (AppJs.mem_ids_onlyInUnivius.mp hbad).1

/-- C6 witness: the disjointness applied at a concrete result and id. -/
theorem c6_witness :
    (js "1") ∈ (AppJs.compareSdnData (some ⟨[⟨some ⟨js "1", js "A", js ""⟩⟩]⟩)
      none none).onlyInV2.map (·.id) ∧
    ((js "1") ∉ (AppJs.compareSdnData (some ⟨[⟨some ⟨js "1", js "A", js ""⟩⟩]⟩)
      none none).onlyInV4.map (·.id) ∧
    (js "1") ∉ (AppJs.compareSdnData (some ⟨[⟨some ⟨js "1", js "A", js ""⟩⟩]⟩)
      none none).onlyInUnivius.map (·.id)) :=
  ⟨by decide,
    (c6_exclusive_disjoint (some ⟨[⟨some ⟨js "1", js "A", js ""⟩⟩]⟩) none none (js "1")).1
      (by decide)⟩

/-- C4: a missing source is treated as an empty sequence — replacing an absent
source by an explicitly empty one does not change the result of App.js
compareSdnData; every non-empty id of the remaining source becomes exclusive
to it; and on the concrete scenario source A = [{id:"1", name:"Alice"}] with
the other sources empty, A's exclusive list holds exactly that record — with
rank 1 in the dateUtils.js two-source variant, which carries positions —
while the other lists and the matched list are empty. -/
theorem c4_missing_source_empty :
    (∀ (v4 : Option ApiData) (u : Option (List UniviusItem)),
      AppJs.compareSdnData none v4 u = AppJs.compareSdnData (some ⟨[]⟩) v4 u) ∧
    (∀ (v2 : Option ApiData) (u : Option (List UniviusItem)),
      AppJs.compareSdnData v2 none u = AppJs.compareSdnData v2 (some ⟨[]⟩) u) ∧
    (∀ v2 v4 : Option ApiData,
      AppJs.compareSdnData v2 v4 none = AppJs.compareSdnData v2 v4 (some [])) ∧
    (∀ (v2 : Option ApiData) (u : Option (List UniviusItem)) (id : JsStr),
      id ∈ respIds v2 → id ∉ univIds u →
      id ∈ (AppJs.compareSdnData v2 none u).onlyInV2.map (·.id)) ∧
    AppJs.compareSdnData (some ⟨[⟨some ⟨js "1", js "Alice", js ""⟩⟩]⟩) none none =
      ⟨[⟨js "1", js "Alice", js ""⟩], [], []⟩ ∧
    (DateUtils.compareSdnData (some ⟨[⟨some ⟨js "1", js "Alice", js ""⟩⟩]⟩) none).onlyInV2 =
      [⟨js "1", js "Alice", js "", some 1, none⟩] ∧
    (DateUtils.compareSdnData (some ⟨[⟨some ⟨js "1", js "Alice", js ""⟩⟩]⟩) none).onlyInV4 = [] ∧
    (DateUtils.compareSdnData (some ⟨[⟨some ⟨js "1", js "Alice", js ""⟩⟩]⟩) none).inBoth = [] := by
  refine ⟨fun v4 u => rfl, fun v2 u => rfl, fun v2 v4 => rfl, ?_, by decide, by decide,
    by decide, by decide⟩
  intro v2 u id h2 hu
  exact AppJs.mem_ids_onlyInV2.mpr ⟨h2, by simp [respIds], hu⟩

/-- C4 witness: the exclusivity consequence applied at a concrete input. -/
theorem c4_witness :
    ((js "7") ∈ respIds (some ⟨[⟨some ⟨js "7", js "Zoe", js ""⟩⟩]⟩)) ∧
    ((js "7") ∉ univIds none) ∧
    (js "7") ∈ (AppJs.compareSdnData (some ⟨[⟨some ⟨js "7", js "Zoe", js ""⟩⟩]⟩)
      none none).onlyInV2.map (·.id) :=
  ⟨by decide, by decide,
    c4_missing_source_empty.2.2.2.1 _ _ _ (by decide) (by decide)⟩

/- ===================  Map-model lemmas (dateUtils.js)  =================== -/

theorem mapGet_cons {α : Type} (p : JsStr × α) (m : List (JsStr × α)) (id : JsStr) :
    mapGet (p :: m) id = if p.1 = id then some p.2 else mapGet m id := by
  unfold mapGet
  by_cases h : p.1 = id
  · rw [List.find?_cons_of_pos _ (by simp [h]), if_pos h]
    rfl
  · rw [List.find?_cons_of_neg _ (by simp [h]), if_neg h]

theorem mapHas_eq_isSome {α : Type} (m : List (JsStr × α)) (k : JsStr) :
    mapHas m k = (mapGet m k).isSome := by
  induction m with
  | nil => rfl
  | cons p m ih =>
    rw [mapGet_cons]
    by_cases h : p.1 = k
    · simp [mapHas, h]
    · show mapHas (p :: m) k = _
      simp only [mapHas, List.any_cons]
      rw [decide_eq_false h, Bool.false_or, if_neg h]
      exact ih

theorem mapGet_map_other {α : Type} (m : List (JsStr × α)) (k id : JsStr) (v : α)
    (hne : id ≠ k) :
    mapGet (m.map (fun p => if p.1 = k then (k, v) else p)) id = mapGet m id := by
  induction m with
  | nil => rfl
  | cons a m ih =>
    simp only [List.map_cons, mapGet_cons]
    by_cases hak : a.1 = k
    · rw [if_pos hak]
      have h1 : ¬ (k, v).1 = id := fun he => hne he.symm
      have h2 : ¬ a.1 = id := fun he => hne (he.symm.trans hak)
      rw [if_neg h1, if_neg h2, ih]
    · rw [if_neg hak]
      by_cases haid : a.1 = id
      · rw [if_pos haid, if_pos haid]
      · rw [if_neg haid, if_neg haid, ih]

theorem mapGet_map_overwrite {α : Type} (m : List (JsStr × α)) (k id : JsStr) (v : α)
    (h : m.any (fun p => decide (p.1 = k)) = true) :
    mapGet (m.map (fun p => if p.1 = k then (k, v) else p)) id =
      if id = k then some v else mapGet m id := by
  induction m with
  | nil => simp at h
  | cons a m ih =>
    simp only [List.map_cons, mapGet_cons]
    by_cases hak : a.1 = k
    · rw [if_pos hak]
      by_cases hik : id = k
      · have h0 : (k, v).1 = id := hik.symm
        rw [if_pos h0, if_pos hik]
      · have h1 : ¬ (k, v).1 = id := fun he => hik he.symm
        have h2 : ¬ a.1 = id := fun he => hik (he.symm.trans hak)
        rw [if_neg h1, if_neg hik, if_neg h2, mapGet_map_other m k id v hik]
    · rw [if_neg hak]
      have hm : m.any (fun p => decide (p.1 = k)) = true := by
        rw [List.any_cons, decide_eq_false hak, Bool.false_or] at h
        exact h
      by_cases haid : a.1 = id
      · have hik : ¬ id = k := fun he => hak (haid.trans he)
        rw [if_pos haid, if_neg hik, if_pos haid]
      · rw [if_neg haid, ih hm, if_neg haid]

theorem mapGet_append_single {α : Type} (m : List (JsStr × α)) (k id : JsStr) (v : α) :
    ¬ m.any (fun p => decide (p.1 = k)) = true →
    mapGet (m ++ [(k, v)]) id = if id = k then some v else mapGet m id := by
  induction m with
  | nil =>
    intro _
    rw [List.nil_append, mapGet_cons]
    by_cases hik : id = k
    · have h0 : (k, v).1 = id := hik.symm
      rw [if_pos h0, if_pos hik]
    · have h1 : ¬ (k, v).1 = id := fun he => hik he.symm
      rw [if_neg h1, if_neg hik]
  | cons a m ih =>
    intro h
    have hak : ¬ a.1 = k := fun he => h (by simp [List.any_cons, he])
    have hm : ¬ m.any (fun p => decide (p.1 = k)) = true :=
      fun hm => h (by simp [List.any_cons, hm])
    rw [List.cons_append, mapGet_cons, mapGet_cons, ih hm]
    by_cases haid : a.1 = id
    · have hik : ¬ id = k := fun he => hak (haid.trans he)
      rw [if_pos haid, if_neg hik, if_pos haid]
    · rw [if_neg haid, if_neg haid]

theorem mapGet_mapSet {α : Type} (m : List (JsStr × α)) (k id : JsStr) (v : α) :
    mapGet (mapSet m k v) id = if id = k then some v else mapGet m id := by
  unfold mapSet
  by_cases h : m.any (fun p => decide (p.1 = k))
  · rw [if_pos h]
    exact mapGet_map_overwrite m k id v h
  · rw [if_neg h]
    exact mapGet_append_single m k id v h

namespace DateUtils

theorem mapGet_buildV2Info (l : List RespItem) (i : Nat) (m : List (JsStr × V2Info))
    (id : JsStr) :
    mapGet (buildV2Info l i m) id =
      match lastIdxEntry l id with
      | some q => some (v2InfoOf (i + q.1 + 1) q.2)
      | none => mapGet m id := by
  induction l generalizing i m with
  | nil => simp [buildV2Info, lastIdxEntry]
  | cons item rest ih =>
    rw [buildV2Info, ih]
    cases hrest : lastIdxEntry rest id with
    | some q =>
      simp only [lastIdxEntry, hrest]
      rw [show i + 1 + q.1 + 1 = i + (q.1 + 1) + 1 from by omega]
    | none =>
      simp only [lastIdxEntry, hrest]
      by_cases hitem : respItemId item = some id
      · rw [if_pos hitem]
        obtain ⟨d, hd, hdid, hne⟩ := AppJs.respItemId_eq_some.mp hitem
        simp only [hd]
        rw [if_neg (by rw [hdid]; exact hne), mapGet_mapSet, if_pos hdid.symm]
        simp [v2InfoOf, hd]
      · rw [if_neg hitem]
        cases hrd : item.rulesDetails with
        | none => simp only [hrd]
        | some d =>
          by_cases hdnil : d.sdnid = []
          · simp only [hrd, if_pos hdnil]
          · simp only [hrd, if_neg hdnil]
            rw [mapGet_mapSet, if_neg]
            intro he
            exact hitem (by simp [respItemId, hrd, if_neg hdnil, he])

theorem mapGet_buildV4Pos (l : List RespItem) (i : Nat) (m : List (JsStr × Nat))
    (id : JsStr) :
    mapGet (buildV4Pos l i m) id =
      match mapGet m id with
      | some v => some v
      | none => (firstIdxEntry l id).map (fun q => i + q.1 + 1) := by
  induction l generalizing i m with
  | nil =>
    cases hm : mapGet m id <;> simp [buildV4Pos, firstIdxEntry, hm]
  | cons item rest ih =>
    rw [buildV4Pos, ih]
    cases hri : respItemId item with
    | none =>
      simp only [hri]
      have hne : ¬ respItemId item = some id := by rw [hri]; intro h; cases h
      rw [show firstIdxEntry (item :: rest) id =
        (firstIdxEntry rest id).map (fun p => (p.1 + 1, p.2)) from by
          rw [firstIdxEntry, if_neg hne]]
      cases hget : mapGet m id with
      | some v => rfl
      | none =>
        cases hfe : firstIdxEntry rest id
        · simp
        · simp only [Option.map_some']
          congr 1
          omega
    | some id2 =>
      by_cases heq : id2 = id
      · subst heq
        by_cases hhas : mapHas m id2 = true
        · simp only [hri, if_pos hhas]
          obtain ⟨v, hv⟩ := Option.isSome_iff_exists.mp ((mapHas_eq_isSome m id2) ▸ hhas)
          rw [hv]
        · simp only [hri, if_neg hhas]
          rw [mapGet_mapSet, if_pos rfl]
          have hnone : mapGet m id2 = none := by
            cases hg : mapGet m id2 with
            | none => rfl
            | some v => rw [mapHas_eq_isSome, hg] at hhas; exact absurd rfl hhas
          rw [hnone]
          rw [show firstIdxEntry (item :: rest) id2 = some (0, item) from by
            rw [firstIdxEntry, if_pos hri]]
          rfl
      · simp only [hri]
        have hget2 : mapGet (if mapHas m id2 = true then m else mapSet m id2 (i + 1)) id =
            mapGet m id := by
          by_cases hh : mapHas m id2 = true
          · rw [if_pos hh]
          · rw [if_neg hh, mapGet_mapSet, if_neg (fun he => heq he.symm)]
        rw [hget2]
        have hne2 : ¬ respItemId item = some id := by
          rw [hri]
          intro h
          exact heq (Option.some.inj h)
        rw [show firstIdxEntry (item :: rest) id =
          (firstIdxEntry rest id).map (fun p => (p.1 + 1, p.2)) from by
            rw [firstIdxEntry, if_neg hne2]]
        cases hget : mapGet m id with
        | some v => rfl
        | none =>
          cases hfe : firstIdxEntry rest id
          · simp
          · simp only [Option.map_some']
            congr 1
            omega

end DateUtils

theorem keys_mapSet_any {α : Type} (m : List (JsStr × α)) (k : JsStr) (v : α)
    (h : m.any (fun p => decide (p.1 = k)) = true) :
    (mapSet m k v).map Prod.fst = m.map Prod.fst := by
  unfold mapSet
  rw [if_pos h, List.map_map]
  apply List.map_congr_left
  intro p _
  by_cases hp : p.1 = k
  · simp [Function.comp, hp]
  · simp [Function.comp, hp]

theorem keys_mapSet_not {α : Type} (m : List (JsStr × α)) (k : JsStr) (v : α)
    (h : ¬ m.any (fun p => decide (p.1 = k)) = true) :
    (mapSet m k v).map Prod.fst = m.map Prod.fst ++ [k] := by
  unfold mapSet
  rw [if_neg h, List.map_append]
  rfl

theorem nodup_keys_mapSet {α : Type} (m : List (JsStr × α)) (k : JsStr) (v : α)
    (h : (m.map Prod.fst).Nodup) : ((mapSet m k v).map Prod.fst).Nodup := by
  by_cases hk : m.any (fun p => decide (p.1 = k)) = true
  · rw [keys_mapSet_any m k v hk]
    exact h
  · rw [keys_mapSet_not m k v hk]
    have hkmem : k ∉ m.map Prod.fst := by
      intro hm
      obtain ⟨p, hp, hpk⟩ := List.mem_map.mp hm
      exact hk (List.any_eq_true.mpr ⟨p, hp, by simp [hpk]⟩)
    rw [List.nodup_append]
    exact ⟨h, List.nodup_singleton k, by
      intro a ha hb
      rw [List.mem_singleton] at hb
      exact hkmem (hb ▸ ha)⟩

theorem mapGet_of_mem {α : Type} {m : List (JsStr × α)} {p : JsStr × α}
    (hm : (m.map Prod.fst).Nodup) (h : p ∈ m) : mapGet m p.1 = some p.2 := by
  induction m with
  | nil => cases h
  | cons a m ih =>
    rw [mapGet_cons]
    rcases List.mem_cons.mp h with rfl | h
    · rw [if_pos rfl]
    · have hmk : p.1 ∈ m.map Prod.fst := List.mem_map.mpr ⟨p, h, rfl⟩
      rw [List.map_cons, List.nodup_cons] at hm
      have hne : ¬ a.1 = p.1 := by
        intro he
        exact hm.1 (he ▸ hmk)
      rw [if_neg hne]
      exact ih hm.2 h

namespace DateUtils

theorem nodup_keys_buildV2Info (l : List RespItem) :
    ∀ (i : Nat) (m : List (JsStr × V2Info)),
    (m.map Prod.fst).Nodup → ((buildV2Info l i m).map Prod.fst).Nodup := by
  induction l with
  | nil => intro i m h; exact h
  | cons item rest ih =>
    intro i m h
    rw [buildV2Info]
    apply ih
    cases hrd : item.rulesDetails with
    | none => exact h
    | some d =>
      dsimp only
      by_cases hdnil : d.sdnid = []
      · rw [if_pos hdnil]
        exact h
      · rw [if_neg hdnil]
        exact nodup_keys_mapSet _ _ _ h

theorem nodup_keys_buildV4Pos (l : List RespItem) :
    ∀ (i : Nat) (m : List (JsStr × Nat)),
    (m.map Prod.fst).Nodup → ((buildV4Pos l i m).map Prod.fst).Nodup := by
  induction l with
  | nil => intro i m h; exact h
  | cons item rest ih =>
    intro i m h
    rw [buildV4Pos]
    apply ih
    cases hri : respItemId item with
    | none => exact h
    | some id2 =>
      dsimp only
      by_cases hh : mapHas m id2 = true
      · rw [if_pos hh]
        exact h
      · rw [if_neg hh]
        exact nodup_keys_mapSet _ _ _ h

end DateUtils

/- ===================  Claims about the dateUtils.js comparison  =================== -/

theorem v4get_eq_firstIdx (v4res : List RespItem) (x : JsStr) :
    mapGet (DateUtils.buildV4Pos v4res 0 []) x =
      (DateUtils.firstIdxEntry v4res x).map (fun q => q.1 + 1) := by
  rw [DateUtils.mapGet_buildV4Pos]
  have hnil : mapGet ([] : List (JsStr × Nat)) x = none := rfl
  rw [hnil]
  dsimp only
  cases h : DateUtils.firstIdxEntry v4res x
  · rfl
  · simp [h]

theorem v2get_eq_lastIdx (v2res : List RespItem) (x : JsStr) :
    mapGet (DateUtils.buildV2Info v2res 0 []) x =
      match DateUtils.lastIdxEntry v2res x with
      | some q => some (DateUtils.v2InfoOf (q.1 + 1) q.2)
      | none => none := by
  rw [DateUtils.mapGet_buildV2Info]
  cases h : DateUtils.lastIdxEntry v2res x
  · rfl
  · simp [Nat.zero_add]

/-- C2 counterexample: a V2 source repeating id "1" at positions 1 and 2 with
names "A" then "B".  The matched entry records v2Position 2 and name "B" — the
LAST occurrence — not the first occurrence's rank 1 and name "A" the claim
requires. -/
theorem c2_first_occurrence_counterexample :
    ¬ (∀ e ∈ (DateUtils.compareSdnData
        (some ⟨[⟨some ⟨js "1", js "A", js ""⟩⟩, ⟨some ⟨js "1", js "B", js ""⟩⟩]⟩)
        (some ⟨[⟨some ⟨js "1", js "X", js ""⟩⟩]⟩)).inBoth,
      e.v2Position = (DateUtils.firstIdxEntry
          [⟨some ⟨js "1", js "A", js ""⟩⟩, ⟨some ⟨js "1", js "B", js ""⟩⟩] e.id).map
            (fun q => q.1 + 1) ∧
        e.name = js "A") := by
  decide

/-- C2 (amended): in the dateUtils.js two-source reconciliation the V4 side
keeps the FIRST occurrence's rank (duplicates after the first are ignored),
but the V2 side keeps the LAST occurrence's rank and metadata (each repeat
overwrites the map entry): every entry of inBoth and onlyInV2 carries the
1-based position, name and reference of the last V2 occurrence of its id and
the 1-based position of the first V4 occurrence (none if absent), and every
entry of onlyInV4 carries the first V4 occurrence's position and no V2 data. -/
theorem c2_rank_amended (v2Data v4Data : Option ApiData) :
    (∀ e ∈ (DateUtils.compareSdnData v2Data v4Data).inBoth ++
        (DateUtils.compareSdnData v2Data v4Data).onlyInV2,
      ∃ q, DateUtils.lastIdxEntry ((v2Data.map (·.responses)).getD []) e.id = some q ∧
        e.v2Position = some (q.1 + 1) ∧
        e.name = (DateUtils.v2InfoOf (q.1 + 1) q.2).name ∧
        e.reference = (DateUtils.v2InfoOf (q.1 + 1) q.2).reference ∧
        e.v4Position = (DateUtils.firstIdxEntry ((v4Data.map (·.responses)).getD []) e.id).map
          (fun q2 => q2.1 + 1)) ∧
    (∀ e ∈ (DateUtils.compareSdnData v2Data v4Data).onlyInV4,
      e.v2Position = none ∧
      DateUtils.lastIdxEntry ((v2Data.map (·.responses)).getD []) e.id = none ∧
      e.v4Position = (DateUtils.firstIdxEntry ((v4Data.map (·.responses)).getD []) e.id).map
        (fun q2 => q2.1 + 1)) := by
  have hnodup2 : ((DateUtils.buildV2Info ((v2Data.map (·.responses)).getD []) 0 []).map
      Prod.fst).Nodup := DateUtils.nodup_keys_buildV2Info _ 0 [] (by simp)
  have hnodup4 : ((DateUtils.buildV4Pos ((v4Data.map (·.responses)).getD []) 0 []).map
      Prod.fst).Nodup := DateUtils.nodup_keys_buildV4Pos _ 0 [] (by simp)
  constructor
  · intro e he
    have hin2 : (∃ p, p ∈ DateUtils.buildV2Info ((v2Data.map (·.responses)).getD []) 0 [] ∧
        ∃ v4p, mapGet (DateUtils.buildV4Pos ((v4Data.map (·.responses)).getD []) 0 []) p.1 =
          some v4p ∧
          e = ⟨p.1, p.2.name, p.2.reference, some p.2.position, some v4p⟩) ∨
        (∃ p, p ∈ DateUtils.buildV2Info ((v2Data.map (·.responses)).getD []) 0 [] ∧
          mapGet (DateUtils.buildV4Pos ((v4Data.map (·.responses)).getD []) 0 []) p.1 = none ∧
          e = ⟨p.1, p.2.name, p.2.reference, some p.2.position, none⟩) := by
      rcases List.mem_append.mp he with hin | hin
      · left
        simp only [DateUtils.compareSdnData] at hin
        obtain ⟨p, hp, hfp⟩ := List.mem_filterMap.mp hin
        cases hv4 : mapGet (DateUtils.buildV4Pos ((v4Data.map (·.responses)).getD []) 0 [])
            p.1 with
        | none => rw [hv4] at hfp; exact Option.noConfusion hfp
        | some v4p =>
          rw [hv4] at hfp
          exact ⟨p, hp, v4p, hv4, (Option.some.inj hfp).symm⟩
      · right
        simp only [DateUtils.compareSdnData] at hin
        obtain ⟨p, hp, hfp⟩ := List.mem_filterMap.mp hin
        cases hv4 : mapGet (DateUtils.buildV4Pos ((v4Data.map (·.responses)).getD []) 0 [])
            p.1 with
        | some v4p => rw [hv4] at hfp; exact Option.noConfusion hfp
        | none =>
          rw [hv4] at hfp
          exact ⟨p, hp, hv4, (Option.some.inj hfp).symm⟩
    rcases hin2 with ⟨p, hp, v4p, hv4, rfl⟩ | ⟨p, hp, hv4, rfl⟩ <;>
    · have hget2 := mapGet_of_mem hnodup2 hp
      rw [v2get_eq_lastIdx] at hget2
      obtain ⟨q, hl⟩ : ∃ q, DateUtils.lastIdxEntry ((v2Data.map (·.responses)).getD [])
          p.1 = some q := by
        cases hl2 : DateUtils.lastIdxEntry ((v2Data.map (·.responses)).getD []) p.1 with
        | none => rw [hl2] at hget2; exact Option.noConfusion hget2
        | some q => exact ⟨q, rfl⟩
      rw [hl] at hget2
      have hpq : DateUtils.v2InfoOf (q.1 + 1) q.2 = p.2 := Option.some.inj hget2
      refine ⟨q, hl, ?_, ?_, ?_, ?_⟩
      · dsimp only
        rw [← hpq]
        rfl
      · dsimp only
        rw [← hpq]
      · dsimp only
        rw [← hpq]
      · dsimp only
        rw [← v4get_eq_firstIdx, hv4]
  · intro e he
    simp only [DateUtils.compareSdnData] at he
    obtain ⟨p, hp, hfp⟩ := List.mem_filterMap.mp he
    by_cases hhas : mapHas (DateUtils.buildV2Info ((v2Data.map (·.responses)).getD []) 0 [])
        p.1 = true
    · rw [if_pos hhas] at hfp
      exact Option.noConfusion hfp
    · rw [if_neg hhas] at hfp
      obtain rfl := (Option.some.inj hfp).symm
      have hgetnone : mapGet (DateUtils.buildV2Info ((v2Data.map (·.responses)).getD []) 0 [])
          p.1 = none := by
        cases hg : mapGet (DateUtils.buildV2Info ((v2Data.map (·.responses)).getD []) 0 [])
            p.1 with
        | none => rfl
        | some v => rw [mapHas_eq_isSome, hg] at hhas; exact absurd rfl hhas
      rw [v2get_eq_lastIdx] at hgetnone
      refine ⟨rfl, ?_, ?_⟩
      · cases hl : DateUtils.lastIdxEntry ((v2Data.map (·.responses)).getD []) p.1 with
        | none => rfl
        | some q => rw [hl] at hgetnone; exact Option.noConfusion hgetnone
      · have hget4 := mapGet_of_mem hnodup4 hp
        dsimp only
        rw [← v4get_eq_firstIdx, hget4]

/-- C2 witness: the amended rank statement applied to the duplicated-id input. -/
theorem c2_witness :
    ((⟨js "1", js "B", js "", some 2, some 1⟩ : DateUtils.SdnData) ∈
      (DateUtils.compareSdnData
        (some ⟨[⟨some ⟨js "1", js "A", js ""⟩⟩, ⟨some ⟨js "1", js "B", js ""⟩⟩]⟩)
        (some ⟨[⟨some ⟨js "1", js "X", js ""⟩⟩]⟩)).inBoth ++
      (DateUtils.compareSdnData
        (some ⟨[⟨some ⟨js "1", js "A", js ""⟩⟩, ⟨some ⟨js "1", js "B", js ""⟩⟩]⟩)
        (some ⟨[⟨some ⟨js "1", js "X", js ""⟩⟩]⟩)).onlyInV2) ∧
    (∃ q, DateUtils.lastIdxEntry
        [⟨some ⟨js "1", js "A", js ""⟩⟩, ⟨some ⟨js "1", js "B", js ""⟩⟩] (js "1") = some q ∧
      (some 2 : Option Nat) = some (q.1 + 1) ∧
      js "B" = (DateUtils.v2InfoOf (q.1 + 1) q.2).name ∧
      js "" = (DateUtils.v2InfoOf (q.1 + 1) q.2).reference ∧
      (some 1 : Option Nat) =
        (DateUtils.firstIdxEntry [⟨some ⟨js "1", js "X", js ""⟩⟩] (js "1")).map
          (fun q2 => q2.1 + 1)) :=
  ⟨by decide,
    (c2_rank_amended (some ⟨[⟨some ⟨js "1", js "A", js ""⟩⟩, ⟨some ⟨js "1", js "B", js ""⟩⟩]⟩)
      (some ⟨[⟨some ⟨js "1", js "X", js ""⟩⟩]⟩)).1
      ⟨js "1", js "B", js "", some 2, some 1⟩ (by decide)⟩

/- ===================  Splitter lemmas (splitSdnsForExport)  =================== -/

theorem sdnText_eq_line (s : Sdn) : sdnText s = lineOf s ++ js "\r\n" := rfl

theorem joinTexts_append (a b : List Sdn) :
    joinTexts (a ++ b) = joinTexts a ++ joinTexts b := by
  simp [joinTexts, List.map_append]

theorem joinTexts_cons (r : Sdn) (t : List Sdn) :
    joinTexts (r :: t) = sdnText r ++ joinTexts t := rfl

theorem joinTexts_length (g : List Sdn) : (joinTexts g).length = textLen g := by
  induction g with
  | nil => rfl
  | cons r t ih =>
    rw [joinTexts_cons, List.length_append, ih]
    simp [textLen]

theorem textLen_single (s : Sdn) : textLen [s] = (sdnText s).length := by
  simp [textLen]

theorem textLen_append_single (g : List Sdn) (s : Sdn) :
    textLen (g ++ [s]) = textLen g + (sdnText s).length := by
  simp [textLen, List.map_append]

theorem splitGo_eq (sdns : List Sdn) : ∀ (result : List Chunk) (cur : List Sdn),
    splitGo sdns result (cur.map sdnText) (textLen cur) =
      result ++ mkChunks (chunksOfGo sdns cur) result.length := by
  induction sdns with
  | nil =>
    intro result cur
    rw [splitGo, chunksOfGo]
    by_cases hc : cur = []
    · subst hc
      simp [mkChunks]
    · rw [if_neg (fun hme => hc (by simpa using hme)), if_neg hc]
      simp [mkChunks, joinTexts]
  | cons sdn rest ih =>
    intro result cur
    rw [splitGo, chunksOfGo]
    by_cases hcond : 30000 < textLen cur + (sdnText sdn).length ∧ cur ≠ []
    · have hcond2 : 30000 < textLen cur + (sdnText sdn).length ∧ cur.map sdnText ≠ [] :=
        ⟨hcond.1, fun hme => hcond.2 (by simpa using hme)⟩
      rw [if_pos hcond2, if_pos hcond]
      rw [show (sdnText sdn).length = textLen [sdn] from (textLen_single sdn).symm]
      rw [show [sdnText sdn] = [sdn].map sdnText from rfl]
      rw [ih]
      rw [mkChunks]
      simp [joinTexts, List.append_assoc]
    · have hcond2 : ¬ (30000 < textLen cur + (sdnText sdn).length ∧ cur.map sdnText ≠ []) := by
        intro hc
        exact hcond ⟨hc.1, fun hnil => hc.2 (by simp [hnil])⟩
      rw [if_neg hcond2, if_neg hcond]
      rw [show cur.map sdnText ++ [sdnText sdn] = (cur ++ [sdn]).map sdnText from by
        simp [List.map_append]]
      rw [show textLen cur + (sdnText sdn).length = textLen (cur ++ [sdn]) from
        (textLen_append_single cur sdn).symm]
      exact ih result (cur ++ [sdn])

theorem splitSdnsForExport_eq {sdns : List Sdn} (h : sdns ≠ []) :
    splitSdnsForExport sdns = mkChunks (chunksOf sdns) 0 := by
  unfold splitSdnsForExport
  rw [if_neg h]
  have := splitGo_eq sdns [] []
  simpa [chunksOf, textLen] using this

theorem chunksOfGo_flatten (sdns : List Sdn) : ∀ cur : List Sdn,
    (chunksOfGo sdns cur).flatten = cur ++ sdns := by
  induction sdns with
  | nil =>
    intro cur
    rw [chunksOfGo]
    by_cases hc : cur = []
    · subst hc; rfl
    · rw [if_neg hc]; simp
  | cons sdn rest ih =>
    intro cur
    rw [chunksOfGo]
    by_cases hcond : 30000 < textLen cur + (sdnText sdn).length ∧ cur ≠ []
    · rw [if_pos hcond]
      simp [ih]
    · rw [if_neg hcond]
      rw [ih (cur ++ [sdn])]
      simp

theorem chunksOfGo_ne_nil (sdns : List Sdn) : ∀ cur : List Sdn,
    ∀ g ∈ chunksOfGo sdns cur, g ≠ [] := by
  induction sdns with
  | nil =>
    intro cur g hg
    rw [chunksOfGo] at hg
    by_cases hc : cur = []
    · rw [if_pos hc] at hg; cases hg
    · rw [if_neg hc] at hg
      rw [List.mem_singleton] at hg
      exact hg ▸ hc
  | cons sdn rest ih =>
    intro cur g hg
    rw [chunksOfGo] at hg
    by_cases hcond : 30000 < textLen cur + (sdnText sdn).length ∧ cur ≠ []
    · rw [if_pos hcond] at hg
      rcases List.mem_cons.mp hg with rfl | hg
      · exact hcond.2
      · exact ih [sdn] g hg
    · rw [if_neg hcond] at hg
      exact ih (cur ++ [sdn]) g hg

theorem chunksOfGo_bound (sdns : List Sdn) : ∀ cur : List Sdn,
    (textLen cur ≤ 30000 ∨ ∃ r, cur = [r]) →
    ∀ g ∈ chunksOfGo sdns cur, textLen g ≤ 30000 ∨ ∃ r, g = [r] := by
  induction sdns with
  | nil =>
    intro cur hinv g hg
    rw [chunksOfGo] at hg
    by_cases hc : cur = []
    · rw [if_pos hc] at hg; cases hg
    · rw [if_neg hc] at hg
      rw [List.mem_singleton] at hg
      exact hg ▸ hinv
  | cons sdn rest ih =>
    intro cur hinv g hg
    rw [chunksOfGo] at hg
    by_cases hcond : 30000 < textLen cur + (sdnText sdn).length ∧ cur ≠ []
    · rw [if_pos hcond] at hg
      rcases List.mem_cons.mp hg with rfl | hg
      · exact hinv
      · exact ih [sdn] (Or.inr ⟨sdn, rfl⟩) g hg
    · rw [if_neg hcond] at hg
      refine ih (cur ++ [sdn]) ?_ g hg
      rcases Decidable.not_and_iff_or_not.mp hcond with hlen | hnil
      · left
        rw [textLen_append_single]
        omega
      · have : cur = [] := Decidable.not_not.mp hnil
        subst this
        exact Or.inr ⟨sdn, rfl⟩

theorem chunksOfGo_nonempty (sdns : List Sdn) (hs : sdns ≠ []) :
    ∀ cur : List Sdn, chunksOfGo sdns cur ≠ [] := by
  cases sdns with
  | nil => exact absurd rfl hs
  | cons sdn rest =>
    intro cur
    clear hs
    induction rest generalizing sdn cur with
    | nil =>
      rw [chunksOfGo]
      by_cases hcond : 30000 < textLen cur + (sdnText sdn).length ∧ cur ≠ []
      · rw [if_pos hcond]; simp
      · rw [if_neg hcond]
        rw [chunksOfGo]
        rw [if_neg (by simp)]
        simp
    | cons sdn2 rest2 ih =>
      rw [chunksOfGo]
      by_cases hcond : 30000 < textLen cur + (sdnText sdn).length ∧ cur ≠ []
      · rw [if_pos hcond]; simp
      · rw [if_neg hcond]
        exact ih sdn2 (cur ++ [sdn])

theorem mkChunks_length (gs : List (List Sdn)) : ∀ n : Nat, (mkChunks gs n).length = gs.length := by
  induction gs with
  | nil => intro n; rfl
  | cons g gs ih => intro n; rw [mkChunks]; simp [ih]

theorem mkChunks_mem {c : Chunk} (gs : List (List Sdn)) : ∀ n : Nat, c ∈ mkChunks gs n →
    ∃ g ∈ gs, c.content = jsTrim (joinTexts g) := by
  induction gs with
  | nil => intro n h; cases h
  | cons g gs ih =>
    intro n h
    rw [mkChunks] at h
    rcases List.mem_cons.mp h with rfl | h
    · exact ⟨g, by simp, rfl⟩
    · obtain ⟨g2, hg2, hc⟩ := ih (n + 1) h
      exact ⟨g2, by simp [hg2], hc⟩

theorem mkChunks_get? (gs : List (List Sdn)) : ∀ (n i : Nat) (c : Chunk),
    (mkChunks gs n).get? i = some c → c.isContinuation = decide (0 < n + i) := by
  induction gs with
  | nil => intro n i c h; cases h
  | cons g gs ih =>
    intro n i c h
    rw [mkChunks] at h
    cases i with
    | zero =>
      rw [List.get?_cons_zero] at h
      cases Option.some.inj h
      simp
    | succ i =>
      rw [List.get?_cons_succ] at h
      have harith : n + 1 + i = n + (i + 1) := by omega
      rw [← harith]
      exact ih (n + 1) i c h

theorem dropWhile_length_le (p : Char → Bool) (l : JsStr) :
    (l.dropWhile p).length ≤ l.length := by
  induction l with
  | nil => exact Nat.le_refl 0
  | cons a t ih =>
    by_cases ha : p a = true
    · rw [List.dropWhile_cons_of_pos ha]
      exact Nat.le_succ_of_le ih
    · rw [List.dropWhile_cons_of_neg ha]

theorem length_jsTrim_le (l : JsStr) : (jsTrim l).length ≤ l.length := by
  unfold jsTrim
  rw [List.length_reverse]
  calc ((l.dropWhile Char.isWhitespace).reverse.dropWhile Char.isWhitespace).length
      ≤ (l.dropWhile Char.isWhitespace).reverse.length := dropWhile_length_le _ _
    _ = (l.dropWhile Char.isWhitespace).length := List.length_reverse _
    _ ≤ l.length := dropWhile_length_le _ _

theorem dropWhile_append_eq (p : Char → Bool) (x y : JsStr) :
    (x ++ y).dropWhile p =
      if x.dropWhile p = [] then y.dropWhile p else x.dropWhile p ++ y := by
  induction x with
  | nil => simp
  | cons a t ih =>
    by_cases ha : p a = true
    · rw [List.cons_append, List.dropWhile_cons_of_pos ha, List.dropWhile_cons_of_pos ha, ih]
    · rw [List.cons_append, List.dropWhile_cons_of_neg ha, List.dropWhile_cons_of_neg ha,
        if_neg (by simp)]
      rfl

theorem length_jsTrim_crlf_le (l : JsStr) : (jsTrim (l ++ js "\r\n")).length ≤ l.length := by
  unfold jsTrim
  rw [dropWhile_append_eq]
  by_cases h : l.dropWhile Char.isWhitespace = []
  · rw [if_pos h]
    rw [show (js "\r\n").dropWhile Char.isWhitespace = [] from by decide]
    simp
  · rw [if_neg h, List.reverse_append]
    rw [show (js "\r\n").reverse = ['\n', '\r'] from by decide]
    rw [show (['\n', '\r'] ++ (l.dropWhile Char.isWhitespace).reverse) =
      '\n' :: '\r' :: (l.dropWhile Char.isWhitespace).reverse from rfl]
    rw [List.dropWhile_cons_of_pos (by decide), List.dropWhile_cons_of_pos (by decide)]
    rw [List.length_reverse]
    calc ((l.dropWhile Char.isWhitespace).reverse.dropWhile Char.isWhitespace).length
        ≤ (l.dropWhile Char.isWhitespace).reverse.length := dropWhile_length_le _ _
      _ = (l.dropWhile Char.isWhitespace).length := List.length_reverse _
      _ ≤ l.length := dropWhile_length_le _ _

theorem cleanStr_parts {l : JsStr} (h : cleanStr l = true) :
    l ≠ [] ∧ (∀ c t, l = c :: t → c.isWhitespace = false) ∧
      (∀ c, l.getLast? = some c → c.isWhitespace = false) := by
  refine ⟨?_, ?_, ?_⟩
  · intro hnil
    subst hnil
    exact absurd h (by decide)
  · intro c t hl
    subst hl
    simp [cleanStr] at h
    tauto
  · intro c hlast
    simp [cleanStr, hlast] at h
    tauto

theorem dropWhile_reverse_of_getLast {l : JsStr} {c : Char} (h : l.getLast? = some c)
    (hc : c.isWhitespace = false) :
    l.reverse.dropWhile Char.isWhitespace = l.reverse := by
  cases hrev : l.reverse with
  | nil => rfl
  | cons a t =>
    have hh : l.reverse.head? = some a := by rw [hrev]; rfl
    rw [List.head?_reverse, h] at hh
    cases Option.some.inj hh
    exact List.dropWhile_cons_of_neg (by simp [hc])

theorem jsTrim_chunk (g : List Sdn) (hg : g ≠ []) (hc : ∀ r ∈ g, CleanLine r) :
    jsTrim (joinTexts g) ++ js "\r\n" = joinTexts g := by
  obtain ⟨A, x, rfl⟩ : ∃ A x, g = A ++ [x] :=
    ⟨g.dropLast, g.getLast hg, (List.dropLast_append_getLast hg).symm⟩
  have hx : CleanLine x := hc x (by simp)
  obtain ⟨hxne, hxhead, hxlast⟩ := cleanStr_parts hx
  have hdecomp : joinTexts (A ++ [x]) = (joinTexts A ++ lineOf x) ++ js "\r\n" := by
    rw [joinTexts_append, show joinTexts [x] = sdnText x from by simp [joinTexts],
      sdnText_eq_line, List.append_assoc]
  rw [hdecomp]
  suffices hsuff : jsTrim ((joinTexts A ++ lineOf x) ++ js "\r\n") = joinTexts A ++ lineOf x by
    rw [hsuff]
  obtain ⟨c, t, hY, hcws⟩ :
      ∃ c t, joinTexts A ++ lineOf x = c :: t ∧ c.isWhitespace = false := by
    cases A with
    | nil =>
      cases hl : lineOf x with
      | nil => exact absurd hl hxne
      | cons c t => exact ⟨c, t, by simp [hl, joinTexts], hxhead c t hl⟩
    | cons r A2 =>
      have hr := cleanStr_parts (hc r (by simp))
      cases hl : lineOf r with
      | nil => exact absurd hl hr.1
      | cons c t =>
        refine ⟨c, t ++ js "\r\n" ++ (joinTexts A2 ++ lineOf x), ?_, hr.2.1 c t hl⟩
        rw [joinTexts_cons, sdnText_eq_line, hl]
        simp [List.append_assoc]
  obtain ⟨lc, hlc⟩ : ∃ lc, (lineOf x).getLast? = some lc := by
    cases hl : lineOf x with
    | nil => exact absurd hl hxne
    | cons c2 t2 =>
      exact Option.isSome_iff_exists.mp (List.getLast?_isSome.mpr (List.cons_ne_nil c2 t2))
  have hYlast : (joinTexts A ++ lineOf x).getLast? = some lc := by
    cases hl : lineOf x with
    | nil => exact absurd hl hxne
    | cons c2 t2 =>
      rw [List.getLast?_append_of_ne_nil _ (List.cons_ne_nil c2 t2), ← hl]
      exact hlc
  unfold jsTrim
  rw [dropWhile_append_eq]
  have hYd : (joinTexts A ++ lineOf x).dropWhile Char.isWhitespace =
      joinTexts A ++ lineOf x := by
    rw [hY]
    exact List.dropWhile_cons_of_neg (by simp [hcws])
  rw [if_neg (by rw [hYd, hY]; exact List.cons_ne_nil c t), hYd, List.reverse_append]
  rw [show (js "\r\n").reverse = ['\n', '\r'] from by decide]
  rw [show (['\n', '\r'] ++ (joinTexts A ++ lineOf x).reverse) =
    '\n' :: '\r' :: (joinTexts A ++ lineOf x).reverse from rfl]
  rw [List.dropWhile_cons_of_pos (by decide), List.dropWhile_cons_of_pos (by decide)]
  rw [dropWhile_reverse_of_getLast hYlast (hxlast lc hlc), List.reverse_reverse]

theorem mkChunks_map_content (gs : List (List Sdn)) :
    ∀ n : Nat, (∀ g ∈ gs, g ≠ [] ∧ ∀ r ∈ g, CleanLine r) →
    (mkChunks gs n).map (fun c => c.content ++ js "\r\n") = gs.map joinTexts := by
  induction gs with
  | nil => intro n _; rfl
  | cons g gs ih =>
    intro n h
    rw [mkChunks, List.map_cons, List.map_cons]
    rw [jsTrim_chunk g (h g (by simp)).1 (h g (by simp)).2]
    rw [ih (n + 1) (fun g2 hg2 => h g2 (by simp [hg2]))]

theorem flatten_map_joinTexts (gs : List (List Sdn)) :
    (gs.map joinTexts).flatten = joinTexts gs.flatten := by
  induction gs with
  | nil => rfl
  | cons g gs ih =>
    rw [List.map_cons, List.flatten_cons, List.flatten_cons, joinTexts_append, ih]

/-- C7 counterexample: for the single record id "1", name "Bob " (trailing
space), the only chunk's content is "1 - Bob" — the `trim` applied to each
chunk strips the trailing space (and the line terminator), so concatenating
chunk contents does not reconstruct the original record line under either
reading (with or without the terminator). -/
theorem c7_chunk_integrity_counterexample :
    ((splitSdnsForExport [⟨js "1", js "Bob "⟩]).map (·.content)).flatten ≠
      ([⟨js "1", js "Bob "⟩].map lineOf).flatten ∧
    ((splitSdnsForExport [⟨js "1", js "Bob "⟩]).map (·.content)).flatten ≠
      ([⟨js "1", js "Bob "⟩].map sdnText).flatten := by
  constructor <;> decide

/-- C7 (amended): provided every record's line "{id} - {name}" is non-empty
and neither starts nor ends with whitespace, the splitter partitions the
records into consecutive non-empty groups — every record is in exactly one
chunk and chunk boundaries fall only between records — and re-terminating
each chunk's content with CRLF and concatenating reconstructs exactly the
concatenation of the original record lines in order.  (Without that proviso
the per-chunk trim can strip whitespace belonging to an edge record, see the
counterexample.) -/
theorem c7_chunk_integrity_amended (sdns : List Sdn) (hne : sdns ≠ [])
    (hclean : ∀ r ∈ sdns, CleanLine r) :
    ∃ groups : List (List Sdn),
      groups.flatten = sdns ∧ (∀ g ∈ groups, g ≠ []) ∧
      splitSdnsForExport sdns = mkChunks groups 0 ∧
      ((splitSdnsForExport sdns).map (fun c => c.content ++ js "\r\n")).flatten =
        (sdns.map sdnText).flatten := by
  have hflat : (chunksOf sdns).flatten = sdns := by
    rw [chunksOf, chunksOfGo_flatten]
    rfl
  refine ⟨chunksOf sdns, hflat, fun g hg => chunksOfGo_ne_nil sdns [] g hg,
    splitSdnsForExport_eq hne, ?_⟩
  rw [splitSdnsForExport_eq hne]
  rw [mkChunks_map_content (chunksOf sdns) 0 (fun g hg =>
    ⟨chunksOfGo_ne_nil sdns [] g hg, fun r hr =>
      hclean r (by rw [← hflat]; exact List.mem_flatten.mpr ⟨g, hg, hr⟩)⟩)]
  rw [flatten_map_joinTexts, hflat]
  rfl

/-- C7 witness: the amended reconstruction applied to a concrete two-record
list. -/
theorem c7_witness :
    (([⟨js "1", js "Alice"⟩, ⟨js "2", js "Bob"⟩] : List Sdn) ≠ [] ∧
      ∀ r ∈ ([⟨js "1", js "Alice"⟩, ⟨js "2", js "Bob"⟩] : List Sdn), CleanLine r) ∧
    (∃ groups : List (List Sdn),
      groups.flatten = [⟨js "1", js "Alice"⟩, ⟨js "2", js "Bob"⟩] ∧
      (∀ g ∈ groups, g ≠ []) ∧
      splitSdnsForExport [⟨js "1", js "Alice"⟩, ⟨js "2", js "Bob"⟩] = mkChunks groups 0 ∧
      ((splitSdnsForExport [⟨js "1", js "Alice"⟩, ⟨js "2", js "Bob"⟩]).map
        (fun c => c.content ++ js "\r\n")).flatten =
        ([⟨js "1", js "Alice"⟩, ⟨js "2", js "Bob"⟩].map sdnText).flatten) :=
  ⟨⟨by decide, by decide⟩, c7_chunk_integrity_amended _ (by decide) (by decide)⟩

/-- C8: every chunk's content is at most 30000 characters (the implementation
value of the maximum cell length) unless the chunk consists of a single
record whose own line exceeds 30000 characters, in which case that record's
full (trimmed) rendered line is emitted whole as the chunk's content. -/
theorem c8_chunk_length (sdns : List Sdn) (c : Chunk) (hc : c ∈ splitSdnsForExport sdns) :
    c.content.length ≤ 30000 ∨
      ∃ r ∈ sdns, c.content = jsTrim (sdnText r) ∧ 30000 < (lineOf r).length := by
  by_cases hnil : sdns = []
  · subst hnil
    left
    rw [show splitSdnsForExport [] = [⟨js "No matches", false⟩] from rfl,
      List.mem_singleton] at hc
    subst hc
    decide
  · rw [splitSdnsForExport_eq hnil] at hc
    obtain ⟨g, hg, hcontent⟩ := mkChunks_mem (chunksOf sdns) 0 hc
    have hflat : (chunksOf sdns).flatten = sdns := by
      rw [chunksOf, chunksOfGo_flatten]
      rfl
    rcases chunksOfGo_bound sdns [] (Or.inl (by decide)) g hg with hb | ⟨r, rfl⟩
    · left
      calc c.content.length = (jsTrim (joinTexts g)).length := by rw [hcontent]
        _ ≤ (joinTexts g).length := length_jsTrim_le _
        _ = textLen g := joinTexts_length g
        _ ≤ 30000 := hb
    · have hr : r ∈ sdns := by
        rw [← hflat]
        exact List.mem_flatten.mpr ⟨[r], hg, by simp⟩
      have hcontent2 : c.content = jsTrim (sdnText r) := by
        rw [hcontent]
        congr 1
        simp [joinTexts]
      by_cases hlen : (lineOf r).length ≤ 30000
      · left
        calc c.content.length = (jsTrim (sdnText r)).length := by rw [hcontent2]
          _ = (jsTrim (lineOf r ++ js "\r\n")).length := by rw [sdnText_eq_line]
          _ ≤ (lineOf r).length := length_jsTrim_crlf_le _
          _ ≤ 30000 := hlen
      · right
        exact ⟨r, hr, hcontent2, by omega⟩

/-- C8 witness: the length bound applied to a concrete chunk. -/
theorem c8_witness :
    ((⟨js "1 - Alice", false⟩ : Chunk) ∈ splitSdnsForExport [⟨js "1", js "Alice"⟩]) ∧
    ((⟨js "1 - Alice", false⟩ : Chunk).content.length ≤ 30000 ∨
      ∃ r ∈ ([⟨js "1", js "Alice"⟩] : List Sdn),
        (⟨js "1 - Alice", false⟩ : Chunk).content = jsTrim (sdnText r) ∧
        30000 < (lineOf r).length) :=
  ⟨by decide, c8_chunk_length _ _ (by decide)⟩

/-- C10: the splitter maps the empty record list to exactly one chunk with the
literal content "No matches" and isContinuation false; every produced chunk
list is non-empty; and for every non-empty input the isContinuation flag of
the i-th chunk is true exactly when i is positive. -/
theorem c10_no_matches_chunk :
    splitSdnsForExport [] = [⟨js "No matches", false⟩] ∧
    (∀ sdns : List Sdn, 0 < (splitSdnsForExport sdns).length) ∧
    (∀ sdns : List Sdn, sdns ≠ [] → ∀ (i : Nat) (c : Chunk),
      (splitSdnsForExport sdns).get? i = some c → c.isContinuation = decide (0 < i)) := by
  refine ⟨rfl, ?_, ?_⟩
  · intro sdns
    by_cases hnil : sdns = []
    · subst hnil
      decide
    · rw [splitSdnsForExport_eq hnil, mkChunks_length]
      exact List.length_pos.mpr (chunksOfGo_nonempty sdns hnil [])
  · intro sdns hnil i c hget
    rw [splitSdnsForExport_eq hnil] at hget
    have := mkChunks_get? (chunksOf sdns) 0 i c hget
    rw [this, Nat.zero_add]

/-- C10 witness: the continuation-flag law applied at a concrete chunk. -/
theorem c10_witness :
    (([⟨js "1", js "A"⟩] : List Sdn) ≠ []) ∧
    ((splitSdnsForExport [⟨js "1", js "A"⟩]).get? 0 = some ⟨js "1 - A", false⟩) ∧
    (⟨js "1 - A", false⟩ : Chunk).isContinuation = decide ((0 : Nat) < 0) :=
  ⟨by decide, by decide,
    c10_no_matches_chunk.2.2 [⟨js "1", js "A"⟩] (by decide) 0 ⟨js "1 - A", false⟩ (by decide)⟩

/- ===================  Claims about exportToExcel (App.js)  =================== -/

theorem split_length_pos (sdns : List Sdn) : 0 < (splitSdnsForExport sdns).length := by
  by_cases hnil : sdns = []
  · subst hnil
    decide
  · rw [splitSdnsForExport_eq hnil, mkChunks_length]
    exact List.length_pos.mpr (chunksOfGo_nonempty sdns hnil [])

theorem rowsForResult_get? (r : ResultEntry) (i : Nat) :
    (rowsForResult r).get? i = if i < maxChunksOf r then some (rowAt r i) else none := by
  rw [rowsForResult, List.get?_eq_getElem?, List.getElem?_map]
  by_cases h : i < maxChunksOf r
  · rw [if_pos h, List.getElem?_range h]
    rfl
  · rw [if_neg h]
    rw [List.getElem?_eq_none (by simpa using Nat.le_of_not_lt h)]
    rfl

/-- C9 (amended): each processed result contributes exactly as many export
rows as the maximum chunk count over its six chunked columns (which is at
least one); the first row's Name is the query name and every subsequent row's
Name is the continuation marker "(cont.) " followed by the query name (the
name is not blank). -/
theorem c9_rows_amended (r : ResultEntry) :
    (rowsForResult r).length = maxChunksOf r ∧
    maxChunksOf r = max (max (max (max (max
      (splitSdnsForExport (v2SdnsOf r)).length
      (splitSdnsForExport (exOnlyInV2 r)).length)
      (splitSdnsForExport (v4SdnsOf r)).length)
      (splitSdnsForExport (exOnlyInV4 r)).length)
      (splitSdnsForExport (univiusSdnsOf r)).length)
      (splitSdnsForExport (exOnlyInUnivius r)).length ∧
    0 < (rowsForResult r).length ∧
    (∀ (i : Nat) (row : ExportRow), (rowsForResult r).get? i = some row →
      row.rowName = if i = 0 then r.name else js "(cont.) " ++ r.name) := by
  have hpos := split_length_pos (v2SdnsOf r)
  refine ⟨by simp [rowsForResult], ?_, ?_, ?_⟩
  · rw [maxChunksOf]
    omega
  · rw [show (rowsForResult r).length = maxChunksOf r from by simp [rowsForResult],
      maxChunksOf]
    omega
  · intro i row hrow
    rw [rowsForResult_get?] at hrow
    by_cases h : i < maxChunksOf r
    · rw [if_pos h] at hrow
      cases Option.some.inj hrow
      rfl
    · rw [if_neg h] at hrow
      cases hrow

/-- C9 witness: the row-name law applied to a concrete single-row result. -/
theorem c9_witness :
    ((rowsForResult ⟨js "Bob", none, none, none⟩).get? 0 =
      some (rowAt ⟨js "Bob", none, none, none⟩ 0)) ∧
    (rowAt ⟨js "Bob", none, none, none⟩ 0).rowName =
      (if 0 = 0 then js "Bob" else js "(cont.) " ++ js "Bob") :=
  ⟨by decide, (c9_rows_amended ⟨js "Bob", none, none, none⟩).2.2.2 0 _ (by decide)⟩

theorem sdnText_wide (idc : Char) :
    (sdnText (⟨[idc], List.replicate 15996 'a'⟩ : Sdn)).length = 16002 := by
  show ((([idc] ++ js " - ") ++ List.replicate 15996 'a') ++ js "\r\n").length = 16002
  rw [List.length_append, List.length_append, List.length_append, List.length_replicate]
  rfl

theorem v2SdnsOf_wide :
    v2SdnsOf wideResult = [⟨js "1", List.replicate 15996 'a'⟩,
      ⟨js "2", List.replicate 15996 'a'⟩] := rfl

theorem chunksOf_wide :
    (chunksOf [(⟨js "1", List.replicate 15996 'a'⟩ : Sdn),
      ⟨js "2", List.replicate 15996 'a'⟩]).length = 2 := by
  have h1 : (sdnText (⟨js "1", List.replicate 15996 'a'⟩ : Sdn)).length = 16002 :=
    sdnText_wide '1'
  have h2 : (sdnText (⟨js "2", List.replicate 15996 'a'⟩ : Sdn)).length = 16002 :=
    sdnText_wide '2'
  rw [chunksOf, chunksOfGo, if_neg (fun hc => hc.2 rfl)]
  rw [show ([] : List Sdn) ++ [(⟨js "1", List.replicate 15996 'a'⟩ : Sdn)] =
    [⟨js "1", List.replicate 15996 'a'⟩] from rfl]
  rw [chunksOfGo]
  rw [if_pos ⟨by rw [textLen_single, h1, h2]; omega, List.cons_ne_nil _ _⟩]
  rw [chunksOfGo, if_neg (by exact List.cons_ne_nil _ _)]
  rfl

theorem maxChunksOf_wide : maxChunksOf wideResult = 2 := by
  have hv2 : (splitSdnsForExport (v2SdnsOf wideResult)).length = 2 := by
    rw [v2SdnsOf_wide, splitSdnsForExport_eq (List.cons_ne_nil _ _), mkChunks_length]
    exact chunksOf_wide
  have hex : exOnlyInV2 wideResult = [(⟨js "1", List.replicate 15996 'a'⟩ : Sdn),
      ⟨js "2", List.replicate 15996 'a'⟩] := rfl
  have hexlen : (splitSdnsForExport (exOnlyInV2 wideResult)).length = 2 := by
    rw [hex, splitSdnsForExport_eq (List.cons_ne_nil _ _), mkChunks_length]
    exact chunksOf_wide
  have h3 : (splitSdnsForExport (v4SdnsOf wideResult)).length = 1 := rfl
  have h4 : (splitSdnsForExport (exOnlyInV4 wideResult)).length = 1 := rfl
  have h5 : (splitSdnsForExport (univiusSdnsOf wideResult)).length = 1 := rfl
  have h6 : (splitSdnsForExport (exOnlyInUnivius wideResult)).length = 1 := rfl
  rw [maxChunksOf, hv2, hexlen, h3, h4, h5, h6]
  decide

/-- C9 counterexample: a result whose V2 column needs two chunks produces a
second export row whose Name is "(cont.) Alice" — the continuation marker
followed by the query name — not a blank name as the claim states. -/
theorem c9_blank_name_counterexample :
    ¬ (∀ (i : Nat) (row : ExportRow), (rowsForResult wideResult).get? i = some row →
        1 ≤ i → row.rowName = []) := by
  intro h
  have hget : (rowsForResult wideResult).get? 1 = some (rowAt wideResult 1) := by
    rw [rowsForResult_get?, if_pos (by rw [maxChunksOf_wide]; omega)]
  have hname := h 1 (rowAt wideResult 1) hget (by omega)
  have hrow : (rowAt wideResult 1).rowName = js "(cont.) " ++ js "Alice" := rfl
  rw [hrow] at hname
  exact absurd hname (by decide)
